import Mathlib

/-!
Shallow embedding of `src/事務事業評価/R6/01_struct_pdf.py` (kawasaki-mirai).

The program reconstructs text lines from positioned PDF glyphs, segments a
multi-record document into per-record page ranges, splits records into named
sections, extracts a (code, name) identifier via a heuristic cascade, and
assigns collision-free output file names.

Modelling conventions:
* Python floats are modelled as exact rationals (`ℚ`).
* Python strings are Lean `String`s (lists of unicode scalar characters).
* `unicodedata.normalize("NFKC", ·)` is modelled by `nfkcChar`, the NFKC
  mapping restricted to the characters this development reasons about
  (ideographic space, full-width colon / slash / alphanumerics); it is the
  identity elsewhere.  All claims settled here are insensitive to the
  remainder of the NFKC table.
* Python's stable `sorted` is modelled by a stable insertion sort.
* Fallible operations (list indexing) are additionally modelled in an
  `Except`-monad instrumentation used to settle the no-exception claims.
-/

namespace StructPdf

/-- Unicode whitespace, as recognised by Python's `str.strip` / `str.split` /
the regex class `\s` (restricted to the characters relevant here). -/
def pyIsSpace (c : Char) : Bool :=
  c = ' ' || c = '\t' || c = '\n' || c = '\r' || c = '\x0b' || c = '\x0c' ||
  c = '　' || c = ' '

/-- Python `str.strip()`: drop unicode whitespace from both ends. -/
def pyStrip (s : String) : String :=
  (((s.data.dropWhile pyIsSpace).reverse.dropWhile pyIsSpace).reverse).asString

/-- NFKC normalisation restricted to the characters this development uses:
ideographic space, full-width colon, full-width slash and full-width
alphanumerics map to their half-width forms; every other character is fixed.
Models `unicodedata.normalize("NFKC", ·)` character-wise. -/
def nfkcChar (c : Char) : Char :=
  if c = '　' then ' '
  else if c = '：' then ':'
  else if c = '／' then '/'
  else if '０' ≤ c && c ≤ '９' then Char.ofNat (c.toNat - 65248)
  else if 'Ａ' ≤ c && c ≤ 'Ｚ' then Char.ofNat (c.toNat - 65248)
  else if 'ａ' ≤ c && c ≤ 'ｚ' then Char.ofNat (c.toNat - 65248)
  else c

/-- Python `normalize_token`: NFKC normalisation followed by `strip()`. -/
def normalizeToken (s : String) : String :=
  pyStrip ((s.data.map nfkcChar).asString)

/-- Substring containment (Python `pat in s` on the character level). -/
def containsList (pat : List Char) : List Char → Bool
  | [] => pat.isPrefixOf []
  | c :: rest => pat.isPrefixOf (c :: rest) || containsList pat rest

/-- Auxiliary state machine for whitespace splitting (`str.split()` with no
separator: split on runs of whitespace, dropping empty pieces). -/
def splitWsAux : List Char → List Char → List (List Char)
  | [], acc => if acc.isEmpty then [] else [acc.reverse]
  | c :: cs, acc =>
    if pyIsSpace c then
      if acc.isEmpty then splitWsAux cs []
      else acc.reverse :: splitWsAux cs []
    else splitWsAux cs (c :: acc)

/-- Python `s.split()` (no separator argument). -/
def pySplitWs (s : String) : List String :=
  (splitWsAux s.data []).map List.asString

/-- Auxiliary state machine for `re.split(r"[ \t　]+", s)`: split on runs of
the separator class; empty pieces appear at the boundaries. The boolean
records whether we are inside a separator run. -/
def splitRunsAux (isSep : Char → Bool) : List Char → List Char → Bool → List (List Char)
  | [], acc, _ => [acc.reverse]
  | c :: cs, acc, inSep =>
    if isSep c then
      if inSep then splitRunsAux isSep cs acc true
      else acc.reverse :: splitRunsAux isSep cs [] true
    else splitRunsAux isSep cs (c :: acc) false

/-- The separator class `[ \t　]` of the token-split regular expression. -/
def tabWs (c : Char) : Bool :=
  c = ' ' || c = '\t' || c = '　'

/-- Python `re.split(r"[ \t　]+", s)`. -/
def pySplitTabWs (s : String) : List String :=
  (splitRunsAux tabWs s.data [] false).map List.asString

/-- Python's `abs` on rationals, as an executable definition. -/
def absQ (x : ℚ) : ℚ :=
  if x < 0 then -x else x

/-- ASCII alphanumeric (`[0-9A-Za-z]`). -/
def isAsciiAlnum (c : Char) : Bool :=
  ('0' ≤ c && c ≤ '9') || ('A' ≤ c && c ≤ 'Z') || ('a' ≤ c && c ≤ 'z')

/-- A positioned glyph, as produced by the PDF text layer (`page.chars`). -/
structure PChar where
  text : String
  x0 : ℚ
  top : ℚ
  x1 : ℚ
  bottom : ℚ
deriving DecidableEq, Repr

/-- A reconstructed text line with its bounding box. -/
structure Line where
  text : String
  x0 : ℚ
  y0 : ℚ
  x1 : ℚ
  y1 : ℚ
deriving DecidableEq, Repr

/-- Stable insertion into a list sorted by the boolean preorder `le`:
the new element goes after every existing element that is `le` it. -/
def insertLe (le : α → α → Bool) (x : α) : List α → List α
  | [] => [x]
  | y :: ys => if le y x then y :: insertLe le x ys else x :: y :: ys

/-- Stable sort by the boolean preorder `le`; models Python's stable
`sorted`: elements are inserted in encounter order, each placed after every
already-placed element that is `le` it, so elements with equal keys keep
their original relative order. -/
def insSort (le : α → α → Bool) (l : List α) : List α :=
  l.foldl (fun acc x => insertLe le x acc) []

/-- Lexicographic key `(top, x0)` used to sort glyphs. -/
def leCharTopX0 (a b : PChar) : Bool :=
  a.top < b.top || (a.top = b.top && a.x0 ≤ b.x0)

/-- Key `x0` used to sort the members of one cluster. -/
def leCharX0 (a b : PChar) : Bool :=
  a.x0 ≤ b.x0

/-- Lexicographic key `(y0, x0)` used to sort reconstructed lines. -/
def leLineY0X0 (a b : Line) : Bool :=
  a.y0 < b.y0 || (a.y0 = b.y0 && a.x0 ≤ b.x0)

/-- Glyph-text concatenation of `flush`: walk the x-sorted members pairwise
and insert one space whenever `now.x0 - prev.x1 > gap_tol`. -/
def gapConcat (gapTol : ℚ) : PChar → List PChar → String
  | _, [] => ""
  | prev, now :: rest =>
    (if now.x0 - prev.x1 > gapTol then " " else "") ++ now.text ++ gapConcat gapTol now rest

/-- The body of `flush()` in `extract_lines`: bounding box from mins/maxes of
the members, members sorted by `x0`, texts concatenated with synthesized
spaces, and the result stripped.  Never called on an empty cluster (Python's
`flush` returns early there); the empty case returns a dummy line. -/
def flushLine (gapTol : ℚ) (cur : List PChar) : Line :=
  match cur with
  | [] => ⟨"", 0, 0, 0, 0⟩
  | c :: cs =>
    let x0 := cs.foldl (fun m ch => min m ch.x0) c.x0
    let x1 := cs.foldl (fun m ch => max m ch.x1) c.x1
    let top := cs.foldl (fun m ch => min m ch.top) c.top
    let bottom := cs.foldl (fun m ch => max m ch.bottom) c.bottom
    match insSort leCharX0 (c :: cs) with
    | [] => ⟨"", 0, 0, 0, 0⟩
    | c0 :: rest => ⟨pyStrip (c0.text ++ gapConcat gapTol c0 rest), x0, top, x1, bottom⟩

/-- One step of the clustering loop of `extract_lines`: state is
(current cluster, running reference top, flushed lines). -/
def elStep (lineTol gapTol : ℚ) (st : List PChar × ℚ × List Line) (ch : PChar) :
    List PChar × ℚ × List Line :=
  let (cur, lastTop, lns) := st
  if absQ (ch.top - lastTop) ≤ lineTol then
    (cur ++ [ch], lastTop * (7/10) + ch.top * (3/10), lns)
  else
    ([ch], ch.top, lns ++ [flushLine gapTol cur])

/-- Python `extract_lines(page, line_tol, gap_tol)`: sort glyphs by `(top, x0)`,
cluster by drifting vertical reference, flush clusters into lines, sort the
lines by `(y0, x0)`. -/
def extractLines (chars : List PChar) (lineTol gapTol : ℚ) : List Line :=
  match insSort leCharTopX0 chars with
  | [] => []
  | c :: rest =>
    let st := rest.foldl (elStep lineTol gapTol) ([c], c.top, [])
    insSort leLineY0X0 (st.2.2 ++ [flushLine gapTol st.1])

/-! ### Specification-level description of line reconstruction

These definitions follow the wording of the specification of the
LineReconstructor: a character joins the current cluster exactly when its
`top` is within `line_tolerance` of the running reference, the reference
drifts as `0.7·reference + 0.3·top`, and a flushed cluster becomes a line
whose bounding box is the union of the member boxes and whose text is the
gap-spaced concatenation of the x-sorted member texts, trimmed. -/

/-- Clustering of a (top, x0)-sorted glyph list per the specification: each
glyph joins the current cluster exactly when `|top − reference| ≤ tol`. -/
def clusterAux (tol : ℚ) : List PChar → List PChar → ℚ → List (List PChar)
  | [], cur, _ => [cur]
  | ch :: rest, cur, ref =>
    if absQ (ch.top - ref) ≤ tol then
      clusterAux tol rest (cur ++ [ch]) (ref * (7/10) + ch.top * (3/10))
    else
      cur :: clusterAux tol rest [ch] ch.top

/-- Cluster decomposition of a glyph list per the specification. -/
def clusterSpec (tol : ℚ) : List PChar → List (List PChar)
  | [] => []
  | c :: rest => clusterAux tol rest [c] c.top

/-- A bounding box `(x0, top, x1, bottom)`. -/
def boxUnion (a b : ℚ × ℚ × ℚ × ℚ) : ℚ × ℚ × ℚ × ℚ :=
  (min a.1 b.1, min a.2.1 b.2.1, max a.2.2.1 b.2.2.1, max a.2.2.2 b.2.2.2)

/-- The box of a single glyph. -/
def glyphBox (c : PChar) : ℚ × ℚ × ℚ × ℚ :=
  (c.x0, c.top, c.x1, c.bottom)

/-- Flushing one cluster per the specification: bounding box is the union of
the member glyph boxes; members are sorted by `x0`; texts are concatenated
with one space inserted wherever `next.x0 − prev.x1` strictly exceeds the gap
tolerance; the result is trimmed. -/
def flushSpec (gapTol : ℚ) (cur : List PChar) : Line :=
  match cur with
  | [] => ⟨"", 0, 0, 0, 0⟩
  | c :: cs =>
    let box := (cs.map glyphBox).foldl boxUnion (glyphBox c)
    match insSort leCharX0 (c :: cs) with
    | [] => ⟨"", 0, 0, 0, 0⟩
    | c0 :: rest =>
      ⟨pyStrip (c0.text ++ String.join ((rest.zip (c0 :: rest)).map
          (fun p => (if p.1.x0 - p.2.x1 > gapTol then " " else "") ++ p.1.text))),
        box.1, box.2.1, box.2.2.1, box.2.2.2⟩

/-! ### Label-pattern matching (`CODE_LABEL_RES`)

The two patterns `事務事業コード[：:\s]*([^\s　/／]+)` and
`事業コード[：:\s]*([^\s　/／]+)` have the shape
`literal-label, separator-class*, capture-class+` with a greedy, backtracking
star.  `sepCapMatch` implements exactly that backtracking: prefer consuming a
separator; on failure of the remainder, retry the same character as the start
of the capture. `searchLabel` implements `re.search`'s leftmost-match rule
over the label occurrences. -/

/-- The separator class `[：:\s]`. -/
def labelSep (c : Char) : Bool :=
  c = '：' || c = ':' || pyIsSpace c

/-- The capture class `[^\s　/／]`. -/
def labelCap (c : Char) : Bool :=
  !(pyIsSpace c || c = '　' || c = '/' || c = '／')

/-- Greedy backtracking match of `[：:\s]*([^\s　/／]+)` returning the
capture group. -/
def sepCapMatch : List Char → Option (List Char)
  | [] => none
  | c :: rest =>
    if labelSep c then
      match sepCapMatch rest with
      | some g => some g
      | none => if labelCap c then some (c :: rest.takeWhile labelCap) else none
    else if labelCap c then some (c :: rest.takeWhile labelCap) else none

/-- Models `re.search` for one label pattern: try every occurrence of the literal
label from the left; at each, match the separator/capture tail. -/
def searchLabel (label : List Char) : List Char → Option (List Char)
  | [] => none
  | c :: rest =>
    if label.isPrefixOf (c :: rest) then
      match sepCapMatch ((c :: rest).drop label.length) with
      | some g => some g
      | none => searchLabel label rest
    else searchLabel label rest

/-- Python `try_extract_code_from_text`: normalise, then try the two label patterns
in order; the capture is normalised again. -/
def tryExtractCodeFromText (text : String) : Option String :=
  let t := normalizeToken text
  match searchLabel ("事務事業コード".data) t.data with
  | some g => some (normalizeToken g.asString)
  | none =>
    match searchLabel ("事業コード".data) t.data with
    | some g => some (normalizeToken g.asString)
    | none => none

/-! ### Spatial label-proximity strategy (`try_extract_code_from_lines`) -/

/-- Python `"\n".join(ln["text"] for ln in lines if ln["text"])`. -/
def joinedTexts (lines : List Line) : String :=
  String.intercalate "\n" ((lines.filter (fun ln => ln.text ≠ "")).map (fun ln => ln.text))

/-- First token of a right-side candidate: split on whitespace when the
normalised text contains an ASCII space, cut at an ideographic space, return
the token when non-empty. -/
def firstTokenOf (cand : Line) : Option String :=
  let c := normalizeToken cand.text
  let token := if c.data.contains ' ' then (pySplitWs c).headD "" else c
  let token :=
    if token.data.contains '　' then (token.data.takeWhile (fun ch => ch ≠ '　')).asString
    else token
  if token ≠ "" then some token else none

/-- Key `(x0, y0)` for sorting right-side candidates. -/
def leLineX0Y0 (a b : Line) : Bool :=
  a.x0 < b.x0 || (a.x0 = b.x0 && a.y0 ≤ b.y0)

/-- The spatial scan around one label line: first the lines in the same
vertical band strictly more than `2.0` to the right of the label's `x1`
(first non-empty token of the first three, sorted by `(x0, y0)`), then the
lines strictly below within the horizontal band `[x0 − 5, x1 + 100]`
(whole normalised text of the first of the three nearest, sorted by
`(y0, x0)`). -/
def spatialAt (lines : List Line) (ln : Line) : Option String :=
  let yc := (ln.y0 + ln.y1) / 2
  let rightCands := lines.filter (fun l =>
    decide (absQ ((l.y0 + l.y1) / 2 - yc) ≤ 3) && decide (l.x0 > ln.x1 + 2) && decide (l.text ≠ ""))
  let rightCands := insSort leLineX0Y0 rightCands
  match (rightCands.take 3).findSome? firstTokenOf with
  | some t => some t
  | none =>
    let belowCands := lines.filter (fun l =>
      decide (l.y0 > ln.y1) && decide (l.x0 ≥ ln.x0 - 5) && decide (l.x0 ≤ ln.x1 + 100))
    let belowCands := insSort leLineY0X0 belowCands
    (belowCands.take 3).findSome? (fun cand =>
      let token := normalizeToken cand.text
      if token ≠ "" then some token else none)

/-- Whether a line's text contains one of the code-label keywords. -/
def containsCodeLabel (t : String) : Bool :=
  containsList ("事務事業コード".data) t.data || containsList ("事業コード".data) t.data

/-- The loop over label-bearing lines: the first label line whose spatial
scan yields a token wins. -/
def spatialScan (lines : List Line) : Option String :=
  lines.findSome? (fun ln =>
    if containsCodeLabel ln.text then spatialAt lines ln else none)

/-- Python `try_extract_code_from_lines`: first the inline label match on the joined
text (an empty capture is falsy in Python and falls through), then the
spatial scan around each label-bearing line. -/
def tryExtractCodeFromLines (lines : List Line) : Option String :=
  match tryExtractCodeFromText (joinedTexts lines) with
  | some c => if c = "" then spatialScan lines else some c
  | none => spatialScan lines

/-! ### Combined code+name line pattern and token-split fallback
(`try_extract_code_and_name_from_lines`) -/

/-- The whitespace class `[ \t　]` of the combined line pattern. -/
def reWs (c : Char) : Bool :=
  c = ' ' || c = '\t' || c = '　'

/-- The terminal marker alternatives `(有|無|あり|なし|有り|無し|—|―)`. -/
def stopAlts : List String :=
  ["有", "無", "あり", "なし", "有り", "無し", "—", "―"]

/-- The stop-token set `BUSINESS_NAME_STOP_TOKENS`. -/
def isStopToken (t : String) : Bool :=
  stopAlts.contains t

/-- Tail of the combined line pattern after the name:
`[ \t　]+(有|無|あり|なし|有り|無し|—|―)(?:$|[ \t　])`.  The whitespace run is
forced (no alternative starts with whitespace), so the check is
deterministic. -/
def checkTail (cs : List Char) : Bool :=
  let w := cs.takeWhile reWs
  let rest := cs.drop w.length
  !w.isEmpty && stopAlts.any (fun alt =>
    alt.data.isPrefixOf rest &&
      (match rest.drop alt.data.length with
       | [] => true
       | c :: _ => reWs c))

/-- Lazy name group `(.+?)`: try name lengths ascending; a name may not
contain a newline (`.`); the first length whose tail matches wins. -/
def tryName (tl : List Char) : Option (List Char) :=
  (List.range tl.length).findSome? (fun m0 =>
    let nm := tl.take (m0 + 1)
    if nm.contains '\n' then none
    else if checkTail (tl.drop (m0 + 1)) then some nm else none)

/-- Matches `[ \t　]+` before the name, greedy with backtracking: whitespace lengths
are tried from the maximal run downwards; for each, the lazy name search
runs. -/
def matchAfterCode (rest : List Char) : Option (List Char) :=
  let w := (rest.takeWhile reWs).length
  if w = 0 then none
  else (List.range w).findSome? (fun d => tryName (rest.drop (w - d)))

/-- Anchored match of the combined line pattern
`^([0-9A-Za-z]{4,})[ \t　]+(.+?)[ \t　]+(STOP)(?:$|[ \t　])`, returning the
`code` and `name` groups.  The code group is forced to the maximal
alphanumeric run (shorter choices leave an alphanumeric where whitespace is
required). -/
def reLineMatch (cs : List Char) : Option (List Char × List Char) :=
  let run := cs.takeWhile isAsciiAlnum
  if run.length < 4 then none
  else
    match matchAfterCode (cs.drop run.length) with
    | some nm => some (run, nm)
    | none => none

/-- The token-split fallback on one line: split on `[ \t　]+`; when the first
token has the alphanumeric-code shape, accumulate the following tokens into
the name until a stop token; a name needs at least one token. -/
def tokenSplitLine (ln : Line) : Option (String × String) :=
  let raw := normalizeToken ln.text
  if raw = "" then none
  else
    let tokens := pySplitTabWs raw
    if tokens.length < 2 then none
    else
      match tokens with
      | [] => none
      | first :: rest =>
        if first.length ≥ 4 && first.data.all isAsciiAlnum then
          let nameTokens := rest.takeWhile (fun t => !isStopToken t)
          if nameTokens.isEmpty then none
          else some (first, " ".intercalate nameTokens)
        else none

/-- The combined-pattern scan over all lines (strategy 3). -/
def combinedLineScan (lines : List Line) : Option (String × String) :=
  lines.findSome? (fun ln =>
    match reLineMatch (normalizeToken ln.text).data with
    | some (c, n) => some (normalizeToken c.asString, normalizeToken n.asString)
    | none => none)

/-- The token-split scan over all lines (strategy 4). -/
def tokenSplitScan (lines : List Line) : Option (String × String) :=
  lines.findSome? tokenSplitLine

/-- Python `try_extract_code_and_name_from_lines`: compute the label/spatial code
first, then scan for the combined line pattern, then the token split; a hit
of either scan returns its own code and name, discarding the label/spatial
code. -/
def tryExtractCodeAndNameFromLines (lines : List Line) : Option String × Option String :=
  let codeOnly := tryExtractCodeFromLines lines
  match combinedLineScan lines with
  | some (c, n) => (some c, some n)
  | none =>
    match tokenSplitScan lines with
    | some (c, n) => (some c, some n)
    | none => (codeOnly, none)

/-- The name backfill of `main` (lines 327–336): scan the first 40 candidate
lines for one whose normalised text is non-empty, does not contain `コード`,
has length between 3 and 40, and contains `事業` or ends with it; the first
such text becomes the name. -/
def nameBackfill (candidateLines : List Line) : Option String :=
  (candidateLines.take 40).findSome? (fun ln =>
    let t := normalizeToken ln.text
    if t = "" then none
    else if containsList ("コード".data) t.data then none
    else if 3 ≤ t.length ∧ t.length ≤ 40 ∧
        (containsList ("事業".data) t.data || ("事業".data.isSuffixOf t.data)) then some t
    else none)

/-- The backfill guard of `main`: run the backfill exactly when the code is
truthy (present and non-empty) and the name is falsy (absent or empty); keep
the extracted pair when the backfill finds nothing. -/
def backfillStep (candidateLines : List Line) (p : Option String × Option String) :
    Option String × Option String :=
  if p.1.getD "" ≠ "" ∧ p.2.getD "" = "" then
    match nameBackfill candidateLines with
    | some t => (p.1, some t)
    | none => p
  else p

/-- The identifier step of `main` (lines 324–336): the extraction cascade
followed by the name backfill over the candidate lines. -/
def extractIdentifier (candidateLines : List Line) : Option String × Option String :=
  backfillStep candidateLines (tryExtractCodeAndNameFromLines candidateLines)

/-! ### Section splitting (`find_sections`)

The header patterns are regular expressions in the source; they enter the
embedding as an abstract table of boolean predicates paired with keys, which
is what every claim about section splitting quantifies over. -/

/-- A header-pattern table: a predicate on the line text paired with the
section key it marks. -/
abbrev PatTable := List ((String → Bool) × String)

/-- First pattern matching a text, in table order (`break` after a hit). -/
def firstPatKey (pats : PatTable) (t : String) : Option String :=
  pats.findSome? (fun p => if p.1 t then some p.2 else none)

/-- The marker list `(key, line index)` in line order. -/
def marksAux (pats : PatTable) : List Line → Nat → List (String × Nat)
  | [], _ => []
  | ln :: rest, i =>
    match firstPatKey pats ln.text with
    | some k => (k, i) :: marksAux pats rest (i + 1)
    | none => marksAux pats rest (i + 1)

/-- Sort key for markers: the line index. -/
def leMarkIdx (a b : String × Nat) : Bool :=
  a.2 ≤ b.2

/-- Python `all_lines[start+1:end]`, keeping only non-empty texts. -/
def sliceBody (allLines : List Line) (s e : Nat) : List String :=
  ((allLines.drop (s + 1)).take (e - (s + 1))).filterMap
    (fun ln => if ln.text ≠ "" then some ln.text else none)

/-- Python `sections.setdefault(key, []).extend(body)`: extend the first entry with
this key, or append a new entry at the end (Python dicts preserve insertion
order). -/
def dictExtend (d : List (String × List String)) (k : String) (v : List String) :
    List (String × List String) :=
  match d with
  | [] => [(k, v)]
  | (k1, v1) :: rest =>
    if k1 = k then (k1, v1 ++ v) :: rest else (k1, v1) :: dictExtend rest k v

/-- The marker loop of `find_sections`: each marker's body runs to the next
marker's index (or the end of the record). -/
def buildSections (allLines : List Line) :
    List (String × Nat) → List (String × List String) → List (String × List String)
  | [], d => d
  | (k, s) :: rest, d =>
    let e := match rest with
      | [] => allLines.length
      | (_, s2) :: _ => s2
    buildSections allLines rest (dictExtend d k (sliceBody allLines s e))

/-- Python `find_sections`: markers in line order, bodies between consecutive
markers, `document` fallback when no marker exists. -/
def findSections (pats : PatTable) (allLines : List Line) : List (String × List String) :=
  let marks := insSort leMarkIdx (marksAux pats allLines 0)
  if marks.isEmpty then
    [("document", allLines.filterMap (fun ln => if ln.text ≠ "" then some ln.text else none))]
  else
    buildSections allLines marks []

/-! ### Specification-level description of section splitting -/

/-- Keys in first-occurrence order, skipping keys already seen. -/
def firstKeysAux : List String → List String → List String
  | [], _ => []
  | k :: rest, seen =>
    if seen.contains k then firstKeysAux rest seen
    else k :: firstKeysAux rest (k :: seen)

/-- Concatenation, in positional order, of the bodies attached to one key. -/
def groupJoin (pairs : List (String × List String)) (k : String) : List String :=
  ((pairs.filter (fun p => p.1 = k)).map Prod.snd).flatten

/-- Annotate each marker with the index of the next marker (or the line
count, for the last marker). -/
def withEnds (n : Nat) : List (String × Nat) → List (String × Nat × Nat)
  | [] => []
  | (k, s) :: rest =>
    (k, s, match rest with
           | [] => n
           | (_, s2) :: _ => s2) :: withEnds n rest

/-- Section splitting as the specification words it: markers sorted by line
index; each marker's body is the non-empty texts strictly between it and the
next marker; one entry per distinct key, in first-occurrence order, holding
its bodies concatenated positionally; a single `document` entry with every
non-empty line when no marker exists. -/
def specSections (pats : PatTable) (allLines : List Line) : List (String × List String) :=
  let ms := insSort leMarkIdx (marksAux pats allLines 0)
  if ms.isEmpty then
    [("document", allLines.filterMap (fun ln => if ln.text ≠ "" then some ln.text else none))]
  else
    let bodies := (withEnds allLines.length ms).map
      (fun m => (m.1, sliceBody allLines m.2.1 m.2.2))
    (firstKeysAux (bodies.map Prod.fst) []).map (fun k => (k, groupJoin bodies k))

/-- The dict fold underlying `buildSections`. -/
def foldDict (d : List (String × List String)) (pairs : List (String × List String)) :
    List (String × List String) :=
  pairs.foldl (fun acc p => dictExtend acc p.1 p.2) d

/-! ### Sheet segmentation (`main`, lines 297–312)

`is_sheet_start` searches each line for the literal start marker
`事務事業評価シート`; `main` collects the matching page indices, falls back to
`[0]` when none match, and turns consecutive start indices into inclusive
page ranges.  Range ends are integers because the end of the last range is
`page_count − 1`, which is `-1` on an empty document. -/

/-- Python `is_sheet_start`: some line of the page contains the start marker. -/
def isSheetStart (lines : List Line) : Bool :=
  lines.any (fun ln => containsList ("事務事業評価シート".data) ln.text.data)

/-- The page indices whose lines contain the start marker, in page order,
starting the count at `i`. -/
def sheetStartsAux : List (List Line) → Nat → List Nat
  | [], _ => []
  | pg :: rest, i =>
    if isSheetStart pg then i :: sheetStartsAux rest (i + 1)
    else sheetStartsAux rest (i + 1)

/-- The `sheet_starts` list of the whole document. -/
def sheetStartsOf (pages : List (List Line)) : List Nat :=
  sheetStartsAux pages 0

/-- The range-building loop: each start runs to the page before the next
start; the last start runs to the last page. -/
def mkSheets (n : Nat) : List Nat → List (Nat × Int)
  | [] => []
  | [s] => [(s, (n : Int) - 1)]
  | s :: s2 :: rest => (s, (s2 : Int) - 1) :: mkSheets n (s2 :: rest)

/-- The segmentation of `main`: start pages (with the `[0]` fallback) turned
into inclusive page ranges. -/
def segmentPages (pages : List (List Line)) : List (Nat × Int) :=
  let starts := sheetStartsOf pages
  mkSheets pages.length (if starts.isEmpty then [0] else starts)

/-! ### Output file naming (`main`, lines 356–375)

`main` computes a base file name per sheet and disambiguates collisions with
`_2`, `_3`, …, registering every final name in the `used_names` set. -/

/-- Decimal digit to character. -/
def digitChar : Nat → Char
  | 0 => '0' | 1 => '1' | 2 => '2' | 3 => '3' | 4 => '4'
  | 5 => '5' | 6 => '6' | 7 => '7' | 8 => '8' | 9 => '9' | _ => '*'

/-- Decimal rendering of a natural number (fuel-based, most significant digit
first); models Python's `str`/f-string rendering of `dup_idx`. -/
def natReprAux : Nat → Nat → List Char
  | 0, _ => []
  | fuel + 1, n =>
    if n < 10 then [digitChar n]
    else natReprAux fuel (n / 10) ++ [digitChar (n % 10)]

/-- Decimal rendering of a natural number. -/
def natRepr (n : Nat) : String :=
  (natReprAux (n + 1) n).asString

/-- Left inverse of decimal rendering. -/
def unDigits (l : List Char) : Nat :=
  l.foldl (fun a c => a * 10 + (c.toNat - 48)) 0

/-- The candidate file name `f"{base}_{k}.md"`. -/
def candName (base : String) (k : Nat) : String :=
  base ++ "_" ++ natRepr k ++ ".md"

/-- The `while True` disambiguation loop: try `_{k}`, `_{k+1}`, … until the
candidate is unused; the fuel is always sufficient (pigeonhole over the
registry), so the exhaustion arm is unreachable. -/
def findSuffix (used : List String) (base : String) : Nat → Nat → String
  | 0, k => candName base k
  | fuel + 1, k =>
    if used.contains (candName base k) then findSuffix used base fuel (k + 1)
    else candName base k

/-- The `file_name` resolution of `main`: `f"{base_name}.md"`, disambiguated with
the first unused suffix `_2`, `_3`, … on collision. -/
def resolveName (used : List String) (base : String) : String :=
  let f := base ++ ".md"
  if used.contains f then findSuffix used base (used.length + 1) 2 else f

/-- The per-sheet naming loop: resolve each base name against the registry,
then register the result. -/
def assignAux : List String → List String → List String
  | [], _ => []
  | b :: rest, used =>
    let f := resolveName used b
    f :: assignAux rest (f :: used)

/-- File names assigned to a run of base names, in encounter order. -/
def assignAll (bases : List String) : List String :=
  assignAux bases []

/-! ### Exception instrumentation of the identifier cascade

Python list indexing (`c.split()[0]`, `tokens[0]`) can raise `IndexError`.
The `…E` variants model every such indexing as a fallible `headE`; proving
them equal to `.ok` of the total versions establishes that the cascade never
raises. -/

/-- Fallible `lst[0]`. -/
def headE (l : List α) : Except String α :=
  match l with
  | [] => Except.error "IndexError: list index out of range"
  | a :: _ => Except.ok a

/-- Instrumented first-token extraction of a right-side candidate. -/
def firstTokenOfE (cand : Line) : Except String (Option String) :=
  let c := normalizeToken cand.text
  match (if c.data.contains ' ' then headE (pySplitWs c) else Except.ok c) with
  | Except.error e => Except.error e
  | Except.ok token =>
    let token :=
      if token.data.contains '　' then (token.data.takeWhile (fun ch => ch ≠ '　')).asString
      else token
    Except.ok (if token ≠ "" then some token else none)

/-- Monadic first-hit scan. -/
def findSomeE (f : α → Except String (Option β)) : List α → Except String (Option β)
  | [] => Except.ok none
  | a :: rest =>
    match f a with
    | Except.error e => Except.error e
    | Except.ok (some b) => Except.ok (some b)
    | Except.ok none => findSomeE f rest

/-- Instrumented spatial scan around one label line. -/
def spatialAtE (lines : List Line) (ln : Line) : Except String (Option String) :=
  let yc := (ln.y0 + ln.y1) / 2
  let rightCands := lines.filter (fun l =>
    decide (absQ ((l.y0 + l.y1) / 2 - yc) ≤ 3) && decide (l.x0 > ln.x1 + 2) && decide (l.text ≠ ""))
  let rightCands := insSort leLineX0Y0 rightCands
  match findSomeE firstTokenOfE (rightCands.take 3) with
  | Except.error e => Except.error e
  | Except.ok (some t) => Except.ok (some t)
  | Except.ok none =>
    let belowCands := lines.filter (fun l =>
      decide (l.y0 > ln.y1) && decide (l.x0 ≥ ln.x0 - 5) && decide (l.x0 ≤ ln.x1 + 100))
    let belowCands := insSort leLineY0X0 belowCands
    Except.ok ((belowCands.take 3).findSome? (fun cand =>
      let token := normalizeToken cand.text
      if token ≠ "" then some token else none))

/-- Instrumented spatial-scan loop. -/
def spatialScanE (lines : List Line) : Except String (Option String) :=
  findSomeE (fun ln =>
    if containsCodeLabel ln.text then spatialAtE lines ln else Except.ok none) lines

/-- Instrumented `try_extract_code_from_lines`. -/
def tryExtractCodeFromLinesE (lines : List Line) : Except String (Option String) :=
  match tryExtractCodeFromText (joinedTexts lines) with
  | some c => if c = "" then spatialScanE lines else Except.ok (some c)
  | none => spatialScanE lines

/-- Instrumented token-split fallback on one line. -/
def tokenSplitLineE (ln : Line) : Except String (Option (String × String)) :=
  let raw := normalizeToken ln.text
  if raw = "" then Except.ok none
  else
    let tokens := pySplitTabWs raw
    if tokens.length < 2 then Except.ok none
    else
      match headE tokens with
      | Except.error e => Except.error e
      | Except.ok first =>
        if first.length ≥ 4 && first.data.all isAsciiAlnum then
          let nameTokens := (tokens.drop 1).takeWhile (fun t => !isStopToken t)
          if nameTokens.isEmpty then Except.ok none
          else Except.ok (some (first, " ".intercalate nameTokens))
        else Except.ok none

/-- Instrumented `try_extract_code_and_name_from_lines`. -/
def tryExtractCodeAndNameFromLinesE (lines : List Line) :
    Except String (Option String × Option String) :=
  match tryExtractCodeFromLinesE lines with
  | Except.error e => Except.error e
  | Except.ok codeOnly =>
    match combinedLineScan lines with
    | some p => Except.ok (some p.1, some p.2)
    | none =>
      match findSomeE tokenSplitLineE lines with
      | Except.error e => Except.error e
      | Except.ok (some p) => Except.ok (some p.1, some p.2)
      | Except.ok none => Except.ok (codeOnly, none)

/-- Instrumented identifier step of `main`: the instrumented cascade followed
by the (indexing-free) name backfill. -/
def extractIdentifierE (candidateLines : List Line) :
    Except String (Option String × Option String) :=
  match tryExtractCodeAndNameFromLinesE candidateLines with
  | Except.error e => Except.error e
  | Except.ok p => Except.ok (backfillStep candidateLines p)

/-! ### Decompositions and claim-level variants of the spatial strategy -/

/-- Right-side arm of the spatial strategy, as the code implements it:
candidates in the same vertical band (row tolerance `3.0`) strictly more than
`2.0` to the right of the label's `x1`, sorted by `(x0, y0)`; the first
non-empty token of the first three wins. -/
def rightScan (lines : List Line) (ln : Line) : Option String :=
  ((insSort leLineX0Y0 (lines.filter (fun l =>
    decide (absQ ((l.y0 + l.y1) / 2 - (ln.y0 + ln.y1) / 2) ≤ 3) && decide (l.x0 > ln.x1 + 2) &&
      decide (l.text ≠ "")))).take 3).findSome? firstTokenOf

/-- Below arm of the spatial strategy, as the code implements it: lines
strictly below the label within the horizontal band `[x0 − 5, x1 + 100]`,
sorted by `(y0, x0)`; the whole normalised text of the first of the three
nearest with non-empty normalised text wins. -/
def belowScan (lines : List Line) (ln : Line) : Option String :=
  ((insSort leLineY0X0 (lines.filter (fun l =>
    decide (l.y0 > ln.y1) && decide (l.x0 ≥ ln.x0 - 5) && decide (l.x0 ≤ ln.x1 + 100)))).take 3
    ).findSome? (fun cand =>
      if normalizeToken cand.text ≠ "" then some (normalizeToken cand.text) else none)

/-- The spatial strategy around one label line as claim C6 words it: right
candidates need only `x0` strictly right of the label's `x1` (no `2.0`
margin), and the below arm takes the first non-empty token of the nearest
line only. -/
def spatialClaimAt (lines : List Line) (ln : Line) : Option String :=
  match ((insSort leLineX0Y0 (lines.filter (fun l =>
      decide (absQ ((l.y0 + l.y1) / 2 - (ln.y0 + ln.y1) / 2) ≤ 3) && decide (l.x0 > ln.x1) &&
        decide (l.text ≠ "")))).take 3).findSome? firstTokenOf with
  | some t => some t
  | none =>
    match insSort leLineY0X0 (lines.filter (fun l =>
        decide (l.y0 > ln.y1) && decide (l.x0 ≥ ln.x0 - 5) && decide (l.x0 ≤ ln.x1 + 100))) with
    | [] => none
    | cand :: _ => firstTokenOf cand

/-- The spatial loop under claim C6's wording of the per-label scan. -/
def spatialClaimScan (lines : List Line) : Option String :=
  lines.findSome? (fun ln =>
    if containsCodeLabel ln.text then spatialClaimAt lines ln else none)

/-! ### Concrete inputs used by the claim theorems -/

/-- A single line with the code+name+marker shape of claim C1. -/
def exSingleLine : List Line := [⟨"PRG0001  子育て支援事業  有", 0, 0, 100, 10⟩]

/-- An inline label line followed by a combined-pattern line: the label code
is found by strategies 1–2, then overridden by strategy 3. -/
def exOverrideLines : List Line :=
  [⟨"事務事業コード: X001", 0, 0, 100, 10⟩, ⟨"PRG0001 子育て支援 有", 0, 20, 100, 30⟩]

/-- A candidate strictly right of the label's `x1` but inside the code's
`2.0`-point margin (label `x1 = 50`, candidate `x0 = 51`). -/
def exMarginLines : List Line :=
  [⟨"X001", 51, 10, 60, 20⟩, ⟨"事務事業コード", 0, 10, 50, 20⟩]

/-- The same geometry with the candidate beyond the margin (`x0 = 53`). -/
def exMarginLinesFar : List Line :=
  [⟨"X001", 53, 10, 60, 20⟩, ⟨"事務事業コード", 0, 10, 50, 20⟩]

/-- A below-the-label line whose normalised text contains a space: the below
arm returns the whole text, not its first token. -/
def exBelowLines : List Line :=
  [⟨"天気 晴れ", 0, 30, 50, 40⟩, ⟨"事務事業コード", 0, 10, 50, 20⟩]

/-- A label line whose value stands on the following joined line, placed
geometrically above-left so the spatial strategy cannot see it. -/
def exCrossLines : List Line :=
  [⟨"事務事業コード", 10, 30, 80, 40⟩, ⟨"X001", 0, 0, 8, 5⟩]

/-- A two-page document whose only start marker is on page 1 (page 0 has
none). -/
def exTwoPages : List (List Line) :=
  [[⟨"hello", 0, 0, 10, 10⟩], [⟨"事務事業評価シート", 0, 0, 10, 10⟩]]

/-- A one-page document with no start marker. -/
def exNoMarkerPages : List (List Line) := [[⟨"hello", 0, 0, 10, 10⟩]]

/-- A page consisting of a single whitespace glyph. -/
def exSpaceChar : List PChar := [⟨" ", 0, 0, 1, 1⟩]

/-! ### Helper lemmas and claim theorems -/

theorem string_append_assoc (x y z : String) : (x ++ y) ++ z = x ++ (y ++ z) := by
  apply congrArg String.mk; simp

theorem string_append_empty (x : String) : x ++ "" = x := by
  apply congrArg String.mk
  show x.data ++ [] = x.data
  simp

theorem join_foldl (s : String) (l : List String) :
    l.foldl (fun a b => a ++ b) s = s ++ String.join l := by
  induction l generalizing s with
  | nil => exact (string_append_empty s).symm
  | cons u us ih =>
    show us.foldl (fun a b => a ++ b) (s ++ u) = s ++ String.join (u :: us)
    rw [ih (s ++ u)]
    have h : String.join (u :: us) = u ++ String.join us := by
      show us.foldl (fun a b => a ++ b) ("" ++ u) = u ++ String.join us
      rw [ih ("" ++ u)]
      apply congrArg String.mk; simp
    rw [h, string_append_assoc]

theorem join_cons (a : String) (l : List String) :
    String.join (a :: l) = a ++ String.join l := by
  show l.foldl (fun x y => x ++ y) ("" ++ a) = a ++ String.join l
  rw [join_foldl]
  apply congrArg String.mk; simp

theorem gapConcat_eq_zip (gapTol : ℚ) (c0 : PChar) (rest : List PChar) :
    gapConcat gapTol c0 rest =
      String.join ((rest.zip (c0 :: rest)).map
        (fun p => (if p.1.x0 - p.2.x1 > gapTol then " " else "") ++ p.1.text)) := by
  induction rest generalizing c0 with
  | nil => rfl
  | cons a tl ih =>
    have hz : ((a :: tl).zip (c0 :: a :: tl)) = (a, c0) :: tl.zip (a :: tl) := rfl
    rw [hz, List.map_cons, join_cons, gapConcat, ih a, string_append_assoc]

theorem foldl_min_x0 (c : PChar) (cs : List PChar) :
    cs.foldl (fun m ch => min m ch.x0) c.x0 = ((cs.map glyphBox).foldl boxUnion (glyphBox c)).1 := by
  induction cs generalizing c with
  | nil => rfl
  | cons a tl ih =>
    simp only [List.map_cons, List.foldl_cons]
    have h : boxUnion (glyphBox c) (glyphBox a) =
        glyphBox ⟨"", min c.x0 a.x0, min c.top a.top, max c.x1 a.x1, max c.bottom a.bottom⟩ := rfl
    rw [h, ← ih]

theorem foldl_min_top (c : PChar) (cs : List PChar) :
    cs.foldl (fun m ch => min m ch.top) c.top =
      ((cs.map glyphBox).foldl boxUnion (glyphBox c)).2.1 := by
  induction cs generalizing c with
  | nil => rfl
  | cons a tl ih =>
    simp only [List.map_cons, List.foldl_cons]
    have h : boxUnion (glyphBox c) (glyphBox a) =
        glyphBox ⟨"", min c.x0 a.x0, min c.top a.top, max c.x1 a.x1, max c.bottom a.bottom⟩ := rfl
    rw [h, ← ih]

theorem foldl_max_x1 (c : PChar) (cs : List PChar) :
    cs.foldl (fun m ch => max m ch.x1) c.x1 =
      ((cs.map glyphBox).foldl boxUnion (glyphBox c)).2.2.1 := by
  induction cs generalizing c with
  | nil => rfl
  | cons a tl ih =>
    simp only [List.map_cons, List.foldl_cons]
    have h : boxUnion (glyphBox c) (glyphBox a) =
        glyphBox ⟨"", min c.x0 a.x0, min c.top a.top, max c.x1 a.x1, max c.bottom a.bottom⟩ := rfl
    rw [h, ← ih]

theorem foldl_max_bottom (c : PChar) (cs : List PChar) :
    cs.foldl (fun m ch => max m ch.bottom) c.bottom =
      ((cs.map glyphBox).foldl boxUnion (glyphBox c)).2.2.2 := by
  induction cs generalizing c with
  | nil => rfl
  | cons a tl ih =>
    simp only [List.map_cons, List.foldl_cons]
    have h : boxUnion (glyphBox c) (glyphBox a) =
        glyphBox ⟨"", min c.x0 a.x0, min c.top a.top, max c.x1 a.x1, max c.bottom a.bottom⟩ := rfl
    rw [h, ← ih]

/-- The code's `flush` body agrees with the specification-level flush. -/
theorem flushLine_eq_flushSpec (gapTol : ℚ) (cur : List PChar) :
    flushLine gapTol cur = flushSpec gapTol cur := by
  cases cur with
  | nil => rfl
  | cons c cs =>
    simp only [flushLine, flushSpec]
    rw [foldl_min_x0, foldl_min_top, foldl_max_x1, foldl_max_bottom]
    cases h : insSort leCharX0 (c :: cs) with
    | nil => rfl
    | cons c0 rest =>
      simp only []
      rw [gapConcat_eq_zip]

/-- The clustering fold of `extract_lines` produces exactly the
specification-level clusters, each flushed once. -/
theorem foldl_elStep_eq (lineTol gapTol : ℚ) (chars : List PChar)
    (cur : List PChar) (ref : ℚ) (acc : List Line) :
    (chars.foldl (elStep lineTol gapTol) (cur, ref, acc)).2.2 ++
        [flushLine gapTol (chars.foldl (elStep lineTol gapTol) (cur, ref, acc)).1] =
      acc ++ (clusterAux lineTol chars cur ref).map (flushLine gapTol) := by
  induction chars generalizing cur ref acc with
  | nil => simp [clusterAux]
  | cons ch rest ih =>
    simp only [List.foldl_cons, clusterAux, elStep]
    by_cases h : absQ (ch.top - ref) ≤ lineTol
    · simp only [if_pos h]
      rw [ih]
    · simp only [if_neg h]
      rw [ih]
      simp

/-- Line reconstruction refines its specification: sort the glyphs by
`(top, x0)`, cluster them by the drifting-reference rule, flush every cluster
per the specification, and sort the resulting lines by `(y0, x0)`. -/
theorem extractLines_eq_spec (chars : List PChar) (lineTol gapTol : ℚ) :
    extractLines chars lineTol gapTol =
      insSort leLineY0X0
        ((clusterSpec lineTol (insSort leCharTopX0 chars)).map (flushSpec gapTol)) := by
  have hfl : flushLine gapTol = flushSpec gapTol := funext (flushLine_eq_flushSpec gapTol)
  unfold extractLines
  cases h : insSort leCharTopX0 chars with
  | nil => rfl
  | cons c rest =>
    simp only [clusterSpec]
    rw [foldl_elStep_eq lineTol gapTol rest [c] c.top [], hfl]
    simp

/-- No cluster is discarded: reconstruction yields exactly one line per
cluster, whatever its (possibly empty) trimmed text. -/
theorem insertLe_length (le : α → α → Bool) (x : α) (m : List α) :
    (insertLe le x m).length = m.length + 1 := by
  induction m with
  | nil => rfl
  | cons y ys ih =>
    simp only [insertLe]
    by_cases h : le y x
    · simp [h, ih]
    · simp [h]

theorem insSort_length (le : α → α → Bool) (l : List α) :
    (insSort le l).length = l.length := by
  suffices h : ∀ acc : List α,
      (l.foldl (fun a x => insertLe le x a) acc).length = acc.length + l.length by
    simpa using h []
  induction l with
  | nil => intro acc; simp
  | cons x xs ih =>
    intro acc
    simp only [List.foldl_cons, ih, insertLe_length, List.length_cons]
    omega

theorem extractLines_length (chars : List PChar) (lineTol gapTol : ℚ) :
    (extractLines chars lineTol gapTol).length =
      (clusterSpec lineTol (insSort leCharTopX0 chars)).length := by
  rw [extractLines_eq_spec, insSort_length, List.length_map]

theorem buildSections_eq_foldDict (allLines : List Line) (ms : List (String × Nat))
    (d : List (String × List String)) :
    buildSections allLines ms d =
      foldDict d ((withEnds allLines.length ms).map
        (fun m => (m.1, sliceBody allLines m.2.1 m.2.2))) := by
  induction ms generalizing d with
  | nil => rfl
  | cons m rest ih =>
    obtain ⟨k, s⟩ := m
    cases rest with
    | nil => simp [buildSections, withEnds, foldDict]
    | cons m2 tl =>
      obtain ⟨k2, s2⟩ := m2
      show buildSections allLines ((k2, s2) :: tl) _ = _
      rw [ih]
      rfl

theorem groupJoin_cons (k0 : String) (b0 : List String) (rest : List (String × List String))
    (x : String) :
    groupJoin ((k0, b0) :: rest) x =
      if k0 = x then b0 ++ groupJoin rest x else groupJoin rest x := by
  simp only [groupJoin, List.filter_cons]
  by_cases h : k0 = x
  · simp [h]
  · simp [h]

theorem mem_firstKeysAux (l seen : List String) (k : String) :
    k ∈ firstKeysAux l seen → seen.contains k = false := by
  induction l generalizing seen with
  | nil => intro h; cases h
  | cons a rest ih =>
    intro h
    simp only [firstKeysAux] at h
    by_cases ha : seen.contains a
    · rw [if_pos ha] at h; exact ih seen h
    · rw [if_neg ha] at h
      cases h with
      | head => simpa using ha
      | tail _ h2 =>
        have := ih (a :: seen) h2
        simp only [List.contains_cons, Bool.or_eq_false_iff] at this
        exact this.2

theorem firstKeysAux_congr (l s1 s2 : List String)
    (h : ∀ x, s1.contains x = s2.contains x) :
    firstKeysAux l s1 = firstKeysAux l s2 := by
  induction l generalizing s1 s2 with
  | nil => rfl
  | cons a rest ih =>
    simp only [firstKeysAux, h a]
    by_cases ha : s2.contains a
    · simp only [if_pos ha]; exact ih s1 s2 h
    · simp only [if_neg ha]
      have h2 : ∀ x, (a :: s1).contains x = (a :: s2).contains x := by
        intro x; simp only [List.contains_cons, h x]
      rw [ih (a :: s1) (a :: s2) h2]

theorem dictExtend_keys_mem (d : List (String × List String)) (k0 : String) (b : List String)
    (h : (d.map Prod.fst).contains k0 = true) :
    (dictExtend d k0 b).map Prod.fst = d.map Prod.fst := by
  induction d with
  | nil => simp at h
  | cons kv rest ih =>
    obtain ⟨k1, v1⟩ := kv
    simp only [dictExtend]
    by_cases h1 : k1 = k0
    · simp [h1]
    · simp only [if_neg h1, List.map_cons]
      simp only [List.map_cons, List.contains_cons] at h
      have h2 : (rest.map Prod.fst).contains k0 = true := by
        rcases Bool.or_eq_true_iff.mp h with h3 | h3
        · exact absurd (Eq.symm (by simpa using h3)) h1
        · exact h3
      rw [ih h2]

theorem dictExtend_not_mem (d : List (String × List String)) (k0 : String) (b : List String)
    (h : (d.map Prod.fst).contains k0 = false) :
    dictExtend d k0 b = d ++ [(k0, b)] := by
  induction d with
  | nil => rfl
  | cons kv rest ih =>
    obtain ⟨k1, v1⟩ := kv
    simp only [List.map_cons, List.contains_cons, Bool.or_eq_false_iff] at h
    have h1 : k1 ≠ k0 := by
      intro he; rw [he] at h; simpa using h.1
    simp only [dictExtend, if_neg h1, List.cons_append]
    rw [ih h.2]

theorem dictExtend_map_mem (d : List (String × List String)) (k0 : String) (b : List String)
    (g : String → List String)
    (hnd : (d.map Prod.fst).Nodup)
    (h : (d.map Prod.fst).contains k0 = true) :
    (dictExtend d k0 b).map (fun kv => (kv.1, kv.2 ++ g kv.1)) =
      d.map (fun kv => (kv.1, kv.2 ++ (if k0 = kv.1 then b ++ g kv.1 else g kv.1))) := by
  induction d with
  | nil => simp at h
  | cons kv rest ih =>
    obtain ⟨k1, v1⟩ := kv
    simp only [List.map_cons, List.nodup_cons] at hnd
    simp only [dictExtend]
    by_cases h1 : k1 = k0
    · simp only [if_pos h1, List.map_cons]
      subst h1
      rw [if_pos rfl, List.append_assoc]
      refine congrArg _ ?_
      apply List.map_congr_left
      intro kv2 hm
      have : kv2.1 ≠ k1 := by
        intro he
        exact hnd.1 (he ▸ List.mem_map_of_mem Prod.fst hm)
      rw [if_neg (fun he => this he.symm)]
    · simp only [if_neg h1, List.map_cons]
      have h2 : (rest.map Prod.fst).contains k0 = true := by
        simp only [List.map_cons, List.contains_cons] at h
        rcases Bool.or_eq_true_iff.mp h with h3 | h3
        · exact absurd (Eq.symm (by simpa using h3)) h1
        · exact h3
      rw [ih hnd.2 h2, if_neg (fun he => h1 he.symm)]

theorem contains_append_singleton (l : List String) (a x : String) :
    (l ++ [a]).contains x = ((a :: l).contains x) := by
  rw [Bool.eq_iff_iff]
  constructor
  · intro hx
    have hm := List.elem_iff.mp hx
    rcases List.mem_append.mp hm with hm1 | hm1
    · exact List.elem_iff.mpr (List.mem_cons_of_mem a hm1)
    · simp only [List.mem_singleton] at hm1
      exact List.elem_iff.mpr (by simp [hm1])
  · intro hx
    have hm := List.elem_iff.mp hx
    rcases List.mem_cons.mp hm with hm1 | hm1
    · exact List.elem_iff.mpr (List.mem_append.mpr (Or.inr (by simp [hm1])))
    · exact List.elem_iff.mpr (List.mem_append.mpr (Or.inl hm1))

/-- Master lemma: the `setdefault`/`extend` fold groups the marker bodies by
key, keys in first-occurrence order, bodies concatenated positionally. -/
theorem foldDict_eq_grouped (pairs : List (String × List String))
    (d : List (String × List String)) (hnd : (d.map Prod.fst).Nodup) :
    foldDict d pairs =
      d.map (fun kv => (kv.1, kv.2 ++ groupJoin pairs kv.1)) ++
        (firstKeysAux (pairs.map Prod.fst) (d.map Prod.fst)).map
          (fun k => (k, groupJoin pairs k)) := by
  induction pairs generalizing d with
  | nil =>
    simp [foldDict, groupJoin, firstKeysAux]
  | cons p rest ih =>
    obtain ⟨k0, b0⟩ := p
    show foldDict (dictExtend d k0 b0) rest = _
    by_cases h : (d.map Prod.fst).contains k0
    · have hnd2 : ((dictExtend d k0 b0).map Prod.fst).Nodup := by
        rw [dictExtend_keys_mem d k0 b0 h]; exact hnd
      rw [ih (dictExtend d k0 b0) hnd2, dictExtend_keys_mem d k0 b0 h,
        dictExtend_map_mem d k0 b0 (groupJoin rest) hnd h]
      simp only [List.map_cons, firstKeysAux, if_pos h]
      refine congrArg₂ _ ?_ ?_
      · apply List.map_congr_left
        intro kv hm
        rw [groupJoin_cons]
      · apply List.map_congr_left
        intro k hk
        rw [groupJoin_cons]
        have hc := mem_firstKeysAux _ _ _ hk
        have : k0 ≠ k := by
          intro he; rw [← he] at hc; rw [hc] at h; exact absurd h (by simp)
        rw [if_neg this]
    · have hne := dictExtend_not_mem d k0 b0 (by simpa using h)
      have hk0 : k0 ∉ d.map Prod.fst := by
        intro hm
        exact h (List.elem_iff.mpr hm)
      have hnd2 : ((dictExtend d k0 b0).map Prod.fst).Nodup := by
        rw [hne, List.map_append]
        refine List.Nodup.append hnd (List.nodup_singleton k0) ?_
        intro a ha hb
        simp only [List.map_cons, List.map_nil, List.mem_singleton] at hb
        exact hk0 (hb ▸ ha)
      rw [ih (dictExtend d k0 b0) hnd2, hne]
      simp only [List.map_append, List.map_cons, List.map_nil, List.append_assoc]
      simp only [List.map_cons, firstKeysAux]
      have hcf : (d.map Prod.fst).contains k0 = false := by simpa using h
      rw [if_neg (fun hcon => by rw [hcf] at hcon; exact Bool.false_ne_true hcon)]
      refine congrArg₂ _ ?_ ?_
      · apply List.map_congr_left
        intro kv hm
        rw [groupJoin_cons]
        have : k0 ≠ kv.1 := by
          intro he
          exact hk0 (he ▸ List.mem_map_of_mem Prod.fst hm)
        rw [if_neg this]
      · simp only [List.map_cons, List.singleton_append]
        refine congrArg₂ _ ?_ ?_
        · rw [groupJoin_cons, if_pos rfl]
        · rw [firstKeysAux_congr (rest.map Prod.fst) (d.map Prod.fst ++ [k0]) (k0 :: d.map Prod.fst)
            (fun x => contains_append_singleton (d.map Prod.fst) k0 x)]
          apply List.map_congr_left
          intro k hk
          rw [groupJoin_cons]
          have hc := mem_firstKeysAux _ _ _ hk
          simp only [List.contains_cons, Bool.or_eq_false_iff] at hc
          have : k0 ≠ k := by
            intro he
            have h5 := hc.1
            rw [he] at h5
            simp at h5
          rw [if_neg this]

/-- Theorem: `find_sections` agrees with its specification-level grouped form. -/
theorem findSections_eq_specSections (pats : PatTable) (allLines : List Line) :
    findSections pats allLines = specSections pats allLines := by
  unfold findSections specSections
  by_cases h : (insSort leMarkIdx (marksAux pats allLines 0)).isEmpty
  · simp only [if_pos h]
  · simp only [if_neg h]
    rw [buildSections_eq_foldDict,
      foldDict_eq_grouped ((withEnds allLines.length
        (insSort leMarkIdx (marksAux pats allLines 0))).map
          (fun m => (m.1, sliceBody allLines m.2.1 m.2.2))) [] (by simp)]
    simp

theorem sheetStartsAux_bounds (pages : List (List Line)) (i : Nat) :
    ∀ s ∈ sheetStartsAux pages i, i ≤ s ∧ s < i + pages.length := by
  induction pages generalizing i with
  | nil => intro s hs; cases hs
  | cons pg rest ih =>
    intro s hs
    simp only [sheetStartsAux] at hs
    by_cases h : isSheetStart pg
    · rw [if_pos h] at hs
      cases hs with
      | head => simp
      | tail _ hs2 =>
        have := ih (i + 1) s hs2
        simp only [List.length_cons]
        omega
    · rw [if_neg h] at hs
      have := ih (i + 1) s hs
      simp only [List.length_cons]
      omega

theorem sheetStartsAux_chain (pages : List (List Line)) (i : Nat) :
    (sheetStartsAux pages i).Chain' (· < ·) := by
  induction pages generalizing i with
  | nil => exact List.chain'_nil
  | cons pg rest ih =>
    simp only [sheetStartsAux]
    by_cases h : isSheetStart pg
    · rw [if_pos h]
      apply List.chain'_cons'.mpr
      refine ⟨?_, ih (i + 1)⟩
      intro s hs
      have := sheetStartsAux_bounds rest (i + 1) s (List.mem_of_mem_head? hs)
      omega
    · rw [if_neg h]
      exact ih (i + 1)

theorem sheetStartsAux_nil_of_no_marker (pages : List (List Line)) (i : Nat)
    (h : ∀ pg ∈ pages, isSheetStart pg = false) :
    sheetStartsAux pages i = [] := by
  induction pages generalizing i with
  | nil => rfl
  | cons pg rest ih =>
    simp only [sheetStartsAux]
    rw [h pg (List.mem_cons_self pg rest)]
    simp only [Bool.false_eq_true, if_false]
    exact ih (i + 1) (fun pg2 hm => h pg2 (List.mem_cons_of_mem pg hm))

theorem mkSheets_map_fst (n : Nat) (l : List Nat) :
    (mkSheets n l).map Prod.fst = l := by
  induction l with
  | nil => rfl
  | cons s rest ih =>
    cases rest with
    | nil => rfl
    | cons s2 tl => simpa [mkSheets] using ih

theorem mkSheets_contiguous (n : Nat) (l : List Nat) :
    (mkSheets n l).Chain' (fun a b => (b.1 : Int) = a.2 + 1) := by
  induction l with
  | nil => exact List.chain'_nil
  | cons s rest ih =>
    cases rest with
    | nil => simp [mkSheets]
    | cons s2 tl =>
      simp only [mkSheets]
      apply List.chain'_cons'.mpr
      refine ⟨?_, ih⟩
      intro r hr
      cases tl with
      | nil =>
        simp only [mkSheets, List.head?_cons, Option.mem_def, Option.some.injEq] at hr
        rw [← hr]
        simp
      | cons s3 tl2 =>
        simp only [mkSheets, List.head?_cons, Option.mem_def, Option.some.injEq] at hr
        rw [← hr]
        simp

theorem mkSheets_coverage (n : Nat) (s0 : Nat) (rest : List Nat)
    (hch : (s0 :: rest).Chain' (· < ·))
    (hb : ∀ s ∈ s0 :: rest, s < n) (p : Nat) :
    (∃ r ∈ mkSheets n (s0 :: rest), r.1 ≤ p ∧ (p : Int) ≤ r.2) ↔ (s0 ≤ p ∧ p < n) := by
  induction rest generalizing s0 with
  | nil =>
    simp only [mkSheets, List.mem_singleton]
    constructor
    · rintro ⟨r, hr, h1, h2⟩
      subst hr
      simp only at h1 h2
      omega
    · intro h
      refine ⟨(s0, (n : Int) - 1), rfl, h.1, ?_⟩
      simp only
      omega
  | cons s1 tl ih =>
    have hch2 : (s1 :: tl).Chain' (· < ·) := hch.tail
    have hlt : s0 < s1 := (List.chain'_cons.mp hch).1
    have hb2 : ∀ s ∈ s1 :: tl, s < n := fun s hs => hb s (List.mem_cons_of_mem s0 hs)
    have hs1n : s1 < n := hb2 s1 (List.mem_cons_self s1 tl)
    simp only [mkSheets, List.mem_cons]
    constructor
    · rintro ⟨r, hr | hr, h1, h2⟩
      · subst hr
        simp only at h1 h2
        omega
      · have := (ih s1 hch2 hb2).mp ⟨r, hr, h1, h2⟩
        omega
    · intro h
      by_cases hp : p < s1
      · exact ⟨(s0, (s1 : Int) - 1), Or.inl rfl, h.1, by simp only; omega⟩
      · obtain ⟨r, hr, h1, h2⟩ := (ih s1 hch2 hb2).mpr ⟨by omega, h.2⟩
        exact ⟨r, Or.inr hr, h1, h2⟩

theorem mkSheets_disjoint (n : Nat) (l : List Nat) (hch : l.Chain' (· < ·)) :
    (mkSheets n l).Pairwise (fun a b => (a.2 : Int) < b.1) := by
  induction l with
  | nil => exact List.Pairwise.nil
  | cons s rest ih =>
    cases rest with
    | nil => simp [mkSheets]
    | cons s2 tl =>
      simp only [mkSheets]
      apply List.pairwise_cons.mpr
      refine ⟨?_, ih hch.tail⟩
      intro r hr
      have hmem : r.1 ∈ (mkSheets n (s2 :: tl)).map Prod.fst := List.mem_map_of_mem Prod.fst hr
      rw [mkSheets_map_fst] at hmem
      have hpw : (s2 :: tl).Pairwise (· < ·) :=
        (List.chain'_iff_pairwise).mp hch.tail
      have : s2 ≤ r.1 := by
        cases List.mem_cons.mp hmem with
        | inl h => omega
        | inr h =>
          have := (List.pairwise_cons.mp hpw).1 r.1 h
          omega
      have hlt : s < s2 := (List.chain'_cons.mp hch).1
      simp only
      omega

theorem digitChar_val : ∀ d, d < 10 → (digitChar d).toNat - 48 = d := by decide

theorem unDigits_append_digit (pre : List Char) (c : Char) :
    unDigits (pre ++ [c]) = unDigits pre * 10 + (c.toNat - 48) := by
  simp [unDigits, List.foldl_append]

theorem unDigits_natReprAux (fuel n : Nat) (h : n < fuel) :
    unDigits (natReprAux fuel n) = n := by
  induction fuel generalizing n with
  | zero => omega
  | succ fuel ih =>
    simp only [natReprAux]
    by_cases h10 : n < 10
    · rw [if_pos h10]
      show unDigits [digitChar n] = n
      simp [unDigits, digitChar_val n h10]
    · rw [if_neg h10]
      rw [unDigits_append_digit, ih (n / 10) (by omega), digitChar_val (n % 10) (by omega)]
      omega

theorem natRepr_injective : Function.Injective natRepr := by
  intro a b h
  have hd : natReprAux (a + 1) a = natReprAux (b + 1) b := by
    have := congrArg String.data h
    simpa [natRepr] using this
  have ha := unDigits_natReprAux (a + 1) a (by omega)
  have hb := unDigits_natReprAux (b + 1) b (by omega)
  rw [← ha, ← hb, hd]

theorem string_data_append (a b : String) : (a ++ b).data = a.data ++ b.data := rfl

theorem candName_injective (base : String) : Function.Injective (candName base) := by
  intro a b h
  have hd := congrArg String.data h
  simp only [candName, string_data_append, List.append_assoc] at hd
  have h2 := List.append_cancel_left hd
  have h2b := List.append_cancel_left h2
  have h3 := List.append_cancel_right h2b
  exact natRepr_injective (by
    apply congrArg List.asString at h3
    simpa [natRepr] using h3)

theorem exists_unused (used : List String) (base : String) (k0 : Nat) :
    ∃ j, k0 ≤ j ∧ j < k0 + (used.length + 1) ∧ candName base j ∉ used := by
  by_contra hall
  push_neg at hall
  have hsub : Finset.image (candName base) (Finset.Ico k0 (k0 + (used.length + 1))) ⊆
      used.toFinset := by
    intro x hx
    simp only [Finset.mem_image, Finset.mem_Ico] at hx
    obtain ⟨j, ⟨hj1, hj2⟩, hje⟩ := hx
    rw [List.mem_toFinset, ← hje]
    exact hall j hj1 hj2
  have hcard := Finset.card_le_card hsub
  rw [Finset.card_image_of_injective _ (candName_injective base), Nat.card_Ico] at hcard
  have := List.toFinset_card_le used
  omega

theorem findSuffix_first (used : List String) (base : String) (fuel k : Nat)
    (h : ∃ j, k ≤ j ∧ j < k + fuel ∧ candName base j ∉ used) :
    ∃ j, findSuffix used base fuel k = candName base j ∧ k ≤ j ∧ candName base j ∉ used ∧
      ∀ i, k ≤ i → i < j → candName base i ∈ used := by
  induction fuel generalizing k with
  | zero =>
    obtain ⟨j, h1, h2, _⟩ := h
    omega
  | succ fuel ih =>
    simp only [findSuffix]
    by_cases hk : used.contains (candName base k)
    · rw [if_pos hk]
      have hkm : candName base k ∈ used := List.elem_iff.mp hk
      have h2 : ∃ j, k + 1 ≤ j ∧ j < (k + 1) + fuel ∧ candName base j ∉ used := by
        obtain ⟨j, h1, h2, h3⟩ := h
        refine ⟨j, ?_, by omega, h3⟩
        rcases Nat.eq_or_lt_of_le h1 with he | hl
        · exact absurd (he ▸ hkm) h3
        · omega
      obtain ⟨j, hj1, hj2, hj3, hj4⟩ := ih (k + 1) h2
      refine ⟨j, hj1, by omega, hj3, ?_⟩
      intro i hi1 hi2
      rcases Nat.eq_or_lt_of_le hi1 with he | hl
      · exact he ▸ hkm
      · exact hj4 i (by omega) hi2
    · rw [if_neg hk]
      refine ⟨k, rfl, le_refl k, fun hm => hk (List.elem_iff.mpr hm), ?_⟩
      intro i hi1 hi2
      omega

theorem resolveName_not_mem (used : List String) (base : String) :
    resolveName used base ∉ used := by
  unfold resolveName
  by_cases h : used.contains (base ++ ".md")
  · rw [if_pos h]
    obtain ⟨j, hj1, _, hj3, _⟩ :=
      findSuffix_first used base (used.length + 1) 2 (exists_unused used base 2)
    rw [hj1]
    exact hj3
  · rw [if_neg h]
    exact fun hm => h (List.elem_iff.mpr hm)

theorem assignAux_nodup_and_fresh (bases used : List String) :
    (assignAux bases used).Nodup ∧ ∀ f ∈ assignAux bases used, f ∉ used := by
  induction bases generalizing used with
  | nil => exact ⟨List.nodup_nil, fun f hf => absurd hf (List.not_mem_nil f)⟩
  | cons b rest ih =>
    obtain ⟨ihn, ihf⟩ := ih (resolveName used b :: used)
    constructor
    · apply List.nodup_cons.mpr
      refine ⟨?_, ihn⟩
      intro hmem
      exact (ihf _ hmem) (List.mem_cons_self _ _)
    · intro f hf
      cases List.mem_cons.mp hf with
      | inl he => exact he ▸ resolveName_not_mem used b
      | inr hm =>
        intro hused
        exact (ihf f hm) (List.mem_cons_of_mem _ hused)

/-! #### The instrumented cascade never errors -/

theorem splitWsAux_eq_nil (l : List Char) (acc : List Char) :
    splitWsAux l acc = [] → (∀ c ∈ l, pyIsSpace c = true) ∧ acc.isEmpty = true := by
  induction l generalizing acc with
  | nil =>
    intro h
    simp only [splitWsAux] at h
    by_cases ha : acc.isEmpty
    · exact ⟨fun c hc => absurd hc (List.not_mem_nil c), ha⟩
    · rw [if_neg ha] at h; cases h
  | cons c cs ih =>
    intro h
    simp only [splitWsAux] at h
    by_cases hsp : pyIsSpace c
    · rw [if_pos hsp] at h
      by_cases ha : acc.isEmpty
      · rw [if_pos ha] at h
        obtain ⟨h1, _⟩ := ih [] h
        refine ⟨?_, ha⟩
        intro c2 hc2
        cases List.mem_cons.mp hc2 with
        | inl he => exact he ▸ hsp
        | inr hm => exact h1 c2 hm
      · rw [if_neg ha] at h; cases h
    · rw [if_neg hsp] at h
      obtain ⟨_, h2⟩ := ih (c :: acc) h
      simp at h2

theorem dropWhile_head_false (p : Char → Bool) (l : List Char) (a : Char) (u : List Char)
    (h : l.dropWhile p = a :: u) : p a = false := by
  induction l with
  | nil => cases h
  | cons c cs ih =>
    rw [List.dropWhile_cons] at h
    by_cases hc : p c
    · rw [if_pos hc] at h; exact ih h
    · rw [if_neg hc] at h
      cases h
      simpa using hc

theorem mem_dropWhile_of_not (p : Char → Bool) (l : List Char) (x : Char)
    (hx : x ∈ l) (hp : p x = false) : x ∈ l.dropWhile p := by
  have := List.takeWhile_append_dropWhile (p := p) (l := l)
  rw [← this] at hx
  cases List.mem_append.mp hx with
  | inl h =>
    have := List.mem_takeWhile_imp h
    rw [hp] at this
    cases this
  | inr h => exact h

/-- A non-empty stripped string has a non-whitespace character. -/
theorem data_asString (l : List Char) : (List.asString l).data = l := rfl

theorem pyStrip_has_nonspace (z : String) (h : (pyStrip z).data ≠ []) :
    ∃ x ∈ (pyStrip z).data, pyIsSpace x = false := by
  unfold pyStrip at *
  cases hu : z.data.dropWhile pyIsSpace with
  | nil =>
    rw [hu] at h
    exact absurd rfl h
  | cons a u =>
    have hpa : pyIsSpace a = false := dropWhile_head_false pyIsSpace z.data a u hu
    refine ⟨a, ?_, hpa⟩
    rw [data_asString]
    have hmem : a ∈ (a :: u).reverse := by simp
    have h2 := mem_dropWhile_of_not pyIsSpace (a :: u).reverse a hmem hpa
    exact List.mem_reverse.mpr h2

theorem pySplitWs_ne_nil_of_space (z : String)
    (h : (pyStrip z).data.contains ' ' = true) : pySplitWs (pyStrip z) ≠ [] := by
  intro hnil
  have hne : (pyStrip z).data ≠ [] := by
    intro he
    rw [he] at h
    simp at h
  obtain ⟨x, hx, hpx⟩ := pyStrip_has_nonspace z hne
  have : splitWsAux (pyStrip z).data [] = [] := by
    have := congrArg List.length hnil
    simp only [pySplitWs, List.length_map] at this
    exact List.eq_nil_of_length_eq_zero this
  obtain ⟨hall, _⟩ := splitWsAux_eq_nil (pyStrip z).data [] this
  rw [hall x hx] at hpx
  cases hpx

/-- Every `normalize_token` output is a stripped string. -/
theorem normalizeToken_is_strip (s : String) :
    normalizeToken s = pyStrip ((s.data.map nfkcChar).asString) := rfl

theorem firstTokenOfE_ok (cand : Line) :
    firstTokenOfE cand = Except.ok (firstTokenOf cand) := by
  simp only [firstTokenOfE, firstTokenOf]
  cases h : (normalizeToken cand.text).data.contains ' ' with
  | false => simp
  | true =>
    simp only [if_true]
    have hne := pySplitWs_ne_nil_of_space ((cand.text.data.map nfkcChar).asString)
      (by rw [← normalizeToken_is_strip]; exact h)
    rw [← normalizeToken_is_strip] at hne
    cases hs : pySplitWs (normalizeToken cand.text) with
    | nil => exact absurd hs hne
    | cons t ts => rfl

theorem findSomeE_ok (f : α → Except String (Option β)) (g : α → Option β) (l : List α)
    (h : ∀ a ∈ l, f a = Except.ok (g a)) :
    findSomeE f l = Except.ok (l.findSome? g) := by
  induction l with
  | nil => rfl
  | cons a rest ih =>
    simp only [findSomeE, List.findSome?]
    rw [h a (List.mem_cons_self a rest)]
    cases hg : g a with
    | some b => rfl
    | none => exact ih (fun x hx => h x (List.mem_cons_of_mem a hx))

theorem spatialAtE_ok (lines : List Line) (ln : Line) :
    spatialAtE lines ln = Except.ok (spatialAt lines ln) := by
  simp only [spatialAtE, spatialAt]
  rw [findSomeE_ok firstTokenOfE firstTokenOf _ (fun a _ => firstTokenOfE_ok a)]
  cases h : ((insSort leLineX0Y0 (lines.filter (fun l =>
      decide (absQ ((l.y0 + l.y1) / 2 - (ln.y0 + ln.y1) / 2) ≤ 3) && decide (l.x0 > ln.x1 + 2) &&
        decide (l.text ≠ "")))).take 3).findSome? firstTokenOf with
  | some t => rfl
  | none => rfl

theorem spatialScanE_ok (lines : List Line) :
    spatialScanE lines = Except.ok (spatialScan lines) := by
  simp only [spatialScanE, spatialScan]
  rw [findSomeE_ok
    (fun ln => if containsCodeLabel ln.text then spatialAtE lines ln else Except.ok none)
    (fun ln => if containsCodeLabel ln.text then spatialAt lines ln else none) lines ?_]
  intro a _
  by_cases ha : containsCodeLabel a.text <;>
    simp [ha, spatialAtE_ok lines a]

theorem tryExtractCodeFromLinesE_ok (lines : List Line) :
    tryExtractCodeFromLinesE lines = Except.ok (tryExtractCodeFromLines lines) := by
  simp only [tryExtractCodeFromLinesE, tryExtractCodeFromLines]
  rw [spatialScanE_ok]
  cases tryExtractCodeFromText (joinedTexts lines) with
  | some c =>
    by_cases hc : c = ""
    · simp [hc]
    · simp [hc]
  | none => rfl

theorem tokenSplitLineE_ok (ln : Line) :
    tokenSplitLineE ln = Except.ok (tokenSplitLine ln) := by
  simp only [tokenSplitLineE, tokenSplitLine]
  by_cases h0 : normalizeToken ln.text = ""
  · rw [if_pos h0, if_pos h0]
  · rw [if_neg h0, if_neg h0]
    by_cases h1 : (pySplitTabWs (normalizeToken ln.text)).length < 2
    · rw [if_pos h1, if_pos h1]
    · rw [if_neg h1, if_neg h1]
      cases ht : pySplitTabWs (normalizeToken ln.text) with
      | nil => rw [ht] at h1; simp at h1
      | cons first rest =>
        cases hc : (decide (first.length ≥ 4) && first.data.all isAsciiAlnum) with
        | false => simp [headE, hc]
        | true =>
          cases he : (rest.takeWhile (fun t => !isStopToken t)).isEmpty with
          | false => simp [headE, hc, he]
          | true => simp [headE, hc, he]

/-- The instrumented identifier cascade is exception-free: it returns `.ok`
of the total cascade on every input. -/
theorem tryExtractCodeAndNameFromLinesE_ok (lines : List Line) :
    tryExtractCodeAndNameFromLinesE lines =
      Except.ok (tryExtractCodeAndNameFromLines lines) := by
  simp only [tryExtractCodeAndNameFromLinesE, tryExtractCodeAndNameFromLines, tokenSplitScan]
  rw [tryExtractCodeFromLinesE_ok,
    findSomeE_ok tokenSplitLineE tokenSplitLine lines (fun a _ => tokenSplitLineE_ok a)]
  cases combinedLineScan lines with
  | some p => rfl
  | none =>
    cases lines.findSome? tokenSplitLine with
    | some p => rfl
    | none => rfl

theorem spatialAt_decompose (lines : List Line) (ln : Line) :
    spatialAt lines ln =
      match rightScan lines ln with
      | some t => some t
      | none => belowScan lines ln := by
  simp only [spatialAt, rightScan, belowScan]

/-! ### Claim theorems -/

/-- C1, counterexample.  The claim says a code produced by an earlier
strategy is never replaced by a later one.  On `exOverrideLines` the
label strategies produce `"X001"`, yet the combined line pattern (strategy 3)
replaces it with `"PRG0001"`. -/
theorem c1_counterexample :
    tryExtractCodeFromLines exOverrideLines = some "X001" ∧
    tryExtractCodeAndNameFromLines exOverrideLines = (some "PRG0001", some "子育て支援") ∧
    (some "PRG0001" : Option String) ≠ some "X001" := by
  refine ⟨by decide, by decide, by decide⟩

/-- C1, amended.  The combined line pattern (strategy 3), when it matches,
determines both fields and overrides any code from the label strategies
(1–2); otherwise the token-split fallback (strategy 4) does the same;
otherwise the label/spatial code (possibly absent) is returned with no name.
On the single line `"PRG0001  子育て支援事業  有"` extraction yields
`code = "PRG0001"`, `name = "子育て支援事業"` via strategy 3, the label and
spatial strategies contributing nothing. -/
theorem c1_strategy_precedence :
    (∀ lines p, combinedLineScan lines = some p →
      tryExtractCodeAndNameFromLines lines = (some p.1, some p.2)) ∧
    (∀ lines p, combinedLineScan lines = none → tokenSplitScan lines = some p →
      tryExtractCodeAndNameFromLines lines = (some p.1, some p.2)) ∧
    (∀ lines, combinedLineScan lines = none → tokenSplitScan lines = none →
      tryExtractCodeAndNameFromLines lines = (tryExtractCodeFromLines lines, none)) ∧
    combinedLineScan exSingleLine = some ("PRG0001", "子育て支援事業") ∧
    tryExtractCodeFromLines exSingleLine = none ∧
    tryExtractCodeAndNameFromLines exSingleLine = (some "PRG0001", some "子育て支援事業") := by
  refine ⟨?_, ?_, ?_, by decide, by decide, by decide⟩
  · intro lines p h
    simp only [tryExtractCodeAndNameFromLines, h]
  · intro lines p h1 h2
    simp only [tryExtractCodeAndNameFromLines, h1, h2]
  · intro lines h1 h2
    simp only [tryExtractCodeAndNameFromLines, h1, h2]

/-- C1, witness: the precedence theorem applied to the concrete single-line
input. -/
theorem c1_witness :
    tryExtractCodeAndNameFromLines exSingleLine =
      (some "PRG0001", some "子育て支援事業") :=
  c1_strategy_precedence.1 exSingleLine ("PRG0001", "子育て支援事業") (by decide)

/-- C2, counterexample.  On a two-page document whose only start marker is on
page 1, segmentation yields the single range `[1, 1]`: page 0 belongs to no
range, contradicting the claim that every page is covered. -/
theorem c2_counterexample :
    segmentPages exTwoPages = [(1, 1)] ∧
    ¬ ∃ r ∈ segmentPages exTwoPages, r.1 ≤ 0 ∧ (0 : Int) ≤ r.2 := by
  refine ⟨by decide, by decide⟩

/-- C2, amended.  Record ranges are sorted by start page, contiguous,
pairwise disjoint, and cover exactly the pages from the first marker page
(0 when no page matches) to the last page; pages before the first marker
belong to no range. -/
theorem c2_segmentation_partition (pages : List (List Line)) :
    ((segmentPages pages).map Prod.fst).Chain' (· < ·) ∧
    (segmentPages pages).Chain' (fun a b => (b.1 : Int) = a.2 + 1) ∧
    (segmentPages pages).Pairwise (fun a b => (a.2 : Int) < b.1) ∧
    ∀ p : Nat, (∃ r ∈ segmentPages pages, r.1 ≤ p ∧ (p : Int) ≤ r.2) ↔
      ((sheetStartsOf pages).headD 0 ≤ p ∧ p < pages.length) := by
  cases hs : sheetStartsOf pages with
  | nil =>
    have hseg : segmentPages pages = [(0, (pages.length : Int) - 1)] := by
      simp [segmentPages, hs, mkSheets]
    rw [hseg]
    refine ⟨by simp, by simp, by simp, ?_⟩
    intro p
    simp only [List.mem_singleton, List.headD_nil]
    constructor
    · rintro ⟨r, hr, h1, h2⟩
      subst hr
      simp only at h2
      exact ⟨Nat.zero_le p, by omega⟩
    · rintro ⟨_, h2⟩
      exact ⟨(0, (pages.length : Int) - 1), rfl, Nat.zero_le p, by simp only; omega⟩
  | cons s0 rest =>
    have hch : (s0 :: rest).Chain' (· < ·) := by
      have h := sheetStartsAux_chain pages 0
      rwa [show sheetStartsAux pages 0 = sheetStartsOf pages from rfl, hs] at h
    have hb : ∀ s ∈ s0 :: rest, s < pages.length := by
      intro s hsm
      have h := sheetStartsAux_bounds pages 0 s
        (by rw [show sheetStartsAux pages 0 = sheetStartsOf pages from rfl, hs]; exact hsm)
      omega
    have hseg : segmentPages pages = mkSheets pages.length (s0 :: rest) := by
      simp [segmentPages, hs]
    rw [hseg]
    refine ⟨?_, mkSheets_contiguous _ _, mkSheets_disjoint _ _ hch, ?_⟩
    · rw [mkSheets_map_fst]
      exact hch
    · intro p
      rw [mkSheets_coverage pages.length s0 rest hch hb p]
      simp

/-- C2, witness: on the concrete two-page document, page 1 is covered by a
range, as the partition theorem's coverage clause predicts. -/
theorem c2_witness :
    ∃ r ∈ segmentPages exTwoPages, r.1 ≤ 1 ∧ (1 : Int) ≤ r.2 :=
  ((c2_segmentation_partition exTwoPages).2.2.2 1).mpr (by decide)

/-- C3, counterexample.  A page holding a single whitespace glyph yields one
line whose trimmed text is empty: empty-text lines are not discarded. -/
theorem c3_counterexample :
    extractLines exSpaceChar (5/2) (4/5) = [⟨"", 0, 0, 1, 1⟩] ∧
    ∃ ln ∈ extractLines exSpaceChar (5/2) (4/5), ln.text = "" := by
  refine ⟨by decide, by decide⟩

/-- C3, amended.  Line reconstruction trims every cluster's text but never
discards a cluster: the output has exactly one line per cluster, whatever
its (possibly empty) trimmed text. -/
theorem c3_no_discard (chars : List PChar) (lineTol gapTol : ℚ) :
    (extractLines chars lineTol gapTol).length =
      (clusterSpec lineTol (insSort leCharTopX0 chars)).length :=
  extractLines_length chars lineTol gapTol

/-- C4.  Line reconstruction refines its specification: glyphs sorted by
`(top, x0)`, clustered by the drifting-reference rule
(`|top − reference| ≤ line_tolerance` to join, reference updated to
`0.7·reference + 0.3·top`); each cluster flushed to a line whose bounding box
is the union of member boxes, members sorted by `x0`, texts concatenated with
one space exactly where `next.x0 − prev.x1 > gap_tolerance`, then trimmed. -/
theorem c4_line_reconstruction (chars : List PChar) (lineTol gapTol : ℚ) :
    extractLines chars lineTol gapTol =
      insSort leLineY0X0
        ((clusterSpec lineTol (insSort leCharTopX0 chars)).map (flushSpec gapTol)) :=
  extractLines_eq_spec chars lineTol gapTol

/-- C5.  Section splitting marks each line with the first matching header
pattern, sorts markers by line index, gives each key the non-empty texts
strictly between its marker and the next, concatenates repeated keys'
bodies positionally under one key, and falls back to a single `document`
key when no pattern matches. -/
theorem c5_section_split (pats : PatTable) (allLines : List Line) :
    findSections pats allLines = specSections pats allLines :=
  findSections_eq_specSections pats allLines

/-- C6, counterexample.  A candidate strictly right of the label's `x1` but
within the code's `2.0`-point margin (label `x1 = 50`, candidate `x0 = 51`)
is collected under the claim's reading of the spatial strategy, which then
returns `"X001"`, while the code collects nothing and returns no code. -/
theorem c6_counterexample :
    tryExtractCodeFromLines exMarginLines = none ∧
    spatialClaimScan exMarginLines = some "X001" := by
  constructor
  · have h1 : tryExtractCodeFromText (joinedTexts exMarginLines) = none := by decide
    have hc1 : containsCodeLabel "X001" = false := by decide
    have hc2 : containsCodeLabel "事務事業コード" = true := by decide
    simp only [exMarginLines] at h1
    norm_num [tryExtractCodeFromLines, h1, spatialScan, exMarginLines, List.findSome?,
      List.filter_cons, hc1, hc2, spatialAt, insSort, insertLe, absQ]
  · have hc1 : containsCodeLabel "X001" = false := by decide
    have hc2 : containsCodeLabel "事務事業コード" = true := by decide
    have hft : firstTokenOf ⟨"X001", 51, 10, 60, 20⟩ = some "X001" := by decide
    norm_num [spatialClaimScan, exMarginLines, List.findSome?, List.filter_cons, hc1, hc2,
      spatialClaimAt, insSort, insertLe, hft, absQ]

/-- C6, amended.  The right-side candidates are exactly the non-empty lines
within the `3.0` row tolerance whose `x0` exceeds the label's `x1` by
strictly more than `2.0`, sorted by `(x0, y0)`, first non-empty token of the
first three; the below arm returns the whole normalised text of the first of
the three nearest lines in the band `[x0 − 5, x1 + 100]` strictly below the
label.  A candidate beyond the margin is found; a below candidate
contributes its entire text. -/
theorem c6_spatial_strategy :
    (∀ lines ln, spatialAt lines ln =
      match rightScan lines ln with
      | some t => some t
      | none => belowScan lines ln) ∧
    tryExtractCodeFromLines exMarginLinesFar = some "X001" ∧
    tryExtractCodeFromLines exBelowLines = some "天気 晴れ" := by
  refine ⟨spatialAt_decompose, ?_, ?_⟩
  · have h1 : tryExtractCodeFromText (joinedTexts exMarginLinesFar) = none := by decide
    have hc1 : containsCodeLabel "X001" = false := by decide
    have hc2 : containsCodeLabel "事務事業コード" = true := by decide
    have hft : firstTokenOf ⟨"X001", 53, 10, 60, 20⟩ = some "X001" := by decide
    simp only [exMarginLinesFar] at h1
    norm_num [tryExtractCodeFromLines, h1, spatialScan, exMarginLinesFar, List.findSome?,
      List.filter_cons, hc1, hc2, spatialAt, insSort, insertLe, hft, absQ]
  · have h1 : tryExtractCodeFromText (joinedTexts exBelowLines) = none := by decide
    have hc1 : containsCodeLabel "天気 晴れ" = false := by decide
    have hc2 : containsCodeLabel "事務事業コード" = true := by decide
    have hnt : normalizeToken "天気 晴れ" = "天気 晴れ" := by decide
    have hne : ¬ ("天気 晴れ" = "") := by decide
    simp only [exBelowLines] at h1
    norm_num [tryExtractCodeFromLines, h1, spatialScan, exBelowLines, List.findSome?,
      List.filter_cons, hc1, hc2, spatialAt, insSort, insertLe, hnt, hne, absQ]

/-- C7.  Within one run no two records receive the same file name; a base
name whose `.md` form is unused is taken as is; on collision the first
unused suffix `_2`, `_3`, … is appended; three records with base name `"A"`
receive `A.md`, `A_2.md`, `A_3.md` in encounter order. -/
theorem c7_key_collision :
    (∀ bases, (assignAll bases).Nodup) ∧
    assignAll ["A", "A", "A"] = ["A.md", "A_2.md", "A_3.md"] ∧
    (∀ used b, used.contains (b ++ ".md") = false → resolveName used b = b ++ ".md") ∧
    (∀ used b, used.contains (b ++ ".md") = true →
      ∃ j, 2 ≤ j ∧ resolveName used b = candName b j ∧ candName b j ∉ used ∧
        ∀ i, 2 ≤ i → i < j → candName b i ∈ used) := by
  refine ⟨?_, by decide, ?_, ?_⟩
  · intro bases
    exact (assignAux_nodup_and_fresh bases []).1
  · intro used b h
    have hnm : ¬ (used.contains (b ++ ".md") = true) := by
      rw [h]
      exact Bool.false_ne_true
    simp only [resolveName]
    rw [if_neg hnm]
  · intro used b h
    obtain ⟨j, hj1, hj2, hj3, hj4⟩ :=
      findSuffix_first used b (used.length + 1) 2 (exists_unused used b 2)
    refine ⟨j, hj2, ?_, hj3, hj4⟩
    unfold resolveName
    rw [if_pos h]
    exact hj1

/-- C7, witness: the collision-resolution theorem applied to a fresh registry
and to a registry already holding `A.md`. -/
theorem c7_witness :
    resolveName [] "A" = "A" ++ ".md" ∧
    ∃ j, 2 ≤ j ∧ resolveName ["A.md"] "A" = candName "A" j ∧
      candName "A" j ∉ ["A.md"] ∧ ∀ i, 2 ≤ i → i < j → candName "A" i ∈ ["A.md"] :=
  ⟨c7_key_collision.2.2.1 [] "A" (by decide),
   c7_key_collision.2.2.2 ["A.md"] "A" (by decide)⟩

/-- C8.  When no page matches the start marker, segmentation returns exactly
one record range covering all pages, `[0, last_page]`. -/
theorem c8_no_marker_fallback (pages : List (List Line))
    (h : ∀ pg ∈ pages, isSheetStart pg = false) :
    segmentPages pages = [(0, (pages.length : Int) - 1)] := by
  have hnil : sheetStartsOf pages = [] := sheetStartsAux_nil_of_no_marker pages 0 h
  simp [segmentPages, hnil, mkSheets]

/-- C8, witness: the fallback theorem applied to a concrete marker-free
document. -/
theorem c8_witness :
    segmentPages exNoMarkerPages = [(0, (exNoMarkerPages.length : Int) - 1)] :=
  c8_no_marker_fallback exNoMarkerPages (by decide)

/-- Theorem: the instrumented identifier step of `main`, backfill included,
never errors. -/
theorem extractIdentifierE_ok (candidateLines : List Line) :
    extractIdentifierE candidateLines = Except.ok (extractIdentifier candidateLines) := by
  simp only [extractIdentifierE, extractIdentifier, tryExtractCodeAndNameFromLinesE_ok]

/-- C9.  The identifier cascade, name backfill included, is total: the
instrumented versions, in which every Python list indexing may raise, return
`.ok` of the total functions on every input — no input reaches an error, and
absent fields are `none`. -/
theorem c9_cascade_total (lines : List Line) :
    extractIdentifierE lines = Except.ok (extractIdentifier lines) ∧
    tryExtractCodeAndNameFromLinesE lines =
      Except.ok (tryExtractCodeAndNameFromLines lines) ∧
    tryExtractCodeFromLinesE lines = Except.ok (tryExtractCodeFromLines lines) :=
  ⟨extractIdentifierE_ok lines, tryExtractCodeAndNameFromLinesE_ok lines,
   tryExtractCodeFromLinesE_ok lines⟩

/-- C10.  With the label `事務事業コード` ending one joined line and the value
`X001` on the next, the inline strategy already matches across the newline
and returns the value, even though the value line lies where the spatial
strategy would find nothing. -/
theorem c10_cross_line_inline :
    tryExtractCodeFromText (joinedTexts exCrossLines) = some "X001" ∧
    spatialScan exCrossLines = none ∧
    tryExtractCodeFromLines exCrossLines = some "X001" := by
  refine ⟨by decide, ?_, by decide⟩
  have hc1 : containsCodeLabel "X001" = false := by decide
  have hc2 : containsCodeLabel "事務事業コード" = true := by decide
  norm_num [spatialScan, exCrossLines, List.findSome?, List.filter_cons, hc1, hc2, spatialAt,
    insSort, insertLe, absQ]

end StructPdf
